import Mathlib

/-!
Verification of the ELFI batch-based inference engine against its
natural-language specification.

The Python source is shallowly embedded: machine floats appearing only in
order comparisons and exact rational arithmetic are modelled by `ℚ` (with
`WithTop ℚ` where `np.inf` occurs), Python dictionaries of output arrays by
association lists / column lists, `np.argsort` by a comparison sort on
index-value pairs, Python exceptions by explicit error values, and
unbounded `while` loops by fuel-indexed recursion (one fuel unit per loop
iteration, `none` meaning the loop is still running after that many
iterations).
-/

set_option maxRecDepth 4000

/-! ### Generic list machinery: counting below a value, sorting, argsort -/

/-- Number of entries of `l` that are `≤ v` (the count computed by
`np.sum(arr <= v)` in the source). -/
def countLE {α : Type} [LinearOrder α] (v : α) (l : List α) : ℕ :=
  l.countP (fun x => x ≤ v)

theorem countLE_append {α : Type} [LinearOrder α] (v : α) (l₁ l₂ : List α) :
    countLE v (l₁ ++ l₂) = countLE v l₁ + countLE v l₂ :=
  List.countP_append _ _ _

theorem countLE_perm {α : Type} [LinearOrder α] (v : α) {l₁ l₂ : List α}
    (h : l₁.Perm l₂) : countLE v l₁ = countLE v l₂ :=
  h.countP_eq _

theorem countLE_le_length {α : Type} [LinearOrder α] (v : α) (l : List α) :
    countLE v l ≤ l.length :=
  List.countP_le_length _

theorem countLE_cons {α : Type} [LinearOrder α] (v a : α) (l : List α) :
    countLE v (a :: l) = countLE v l + if a ≤ v then 1 else 0 := by
  simp [countLE, List.countP_cons]

theorem countLE_eq_zero_of_sorted_head {α : Type} [LinearOrder α] {v a : α}
    {l : List α} (hs : List.Sorted (· ≤ ·) (a :: l)) (ha : ¬ a ≤ v) :
    countLE v (a :: l) = 0 := by
  rw [countLE, List.countP_eq_zero]
  intro x hx
  simp only [decide_eq_true_eq]
  rcases List.mem_cons.mp hx with rfl | hx
  · exact ha
  · exact fun hxv => ha (le_trans ((List.sorted_cons.mp hs).1 x hx) hxv)

theorem countLE_take_of_sorted {α : Type} [LinearOrder α] {v : α} :
    ∀ {l : List α}, List.Sorted (· ≤ ·) l → ∀ n,
      countLE v (l.take n) = min n (countLE v l)
  | [], _, n => by simp [countLE]
  | a :: l, hs, 0 => by simp [countLE]
  | a :: l, hs, n + 1 => by
    rw [List.take_succ_cons, countLE_cons, countLE_cons,
      countLE_take_of_sorted (List.sorted_cons.mp hs).2 n]
    by_cases ha : a ≤ v
    · simp only [if_pos ha]
      omega
    · have h0 : countLE v (a :: l) = 0 := countLE_eq_zero_of_sorted_head hs ha
      rw [countLE_cons] at h0
      simp only [if_neg ha] at h0 ⊢
      omega

theorem sorted_take {α : Type} [LinearOrder α] {l : List α}
    (hs : List.Sorted (· ≤ ·) l) (n : ℕ) :
    List.Sorted (· ≤ ·) (l.take n) :=
  List.Pairwise.sublist (List.take_sublist _ _) hs

/-- Two sorted lists with the same `min n`-truncated counts below every
value have the same first `n` elements. -/
theorem take_eq_of_sorted_of_countLE {α : Type} [LinearOrder α] :
    ∀ (n : ℕ) (s t : List α), List.Sorted (· ≤ ·) s → List.Sorted (· ≤ ·) t →
      n ≤ s.length → n ≤ t.length →
      (∀ v, min n (countLE v s) = min n (countLE v t)) →
      s.take n = t.take n
  | 0, _, _, _, _, _, _, _ => by simp
  | n + 1, [], t, _, _, hls, _, _ => by simp at hls
  | n + 1, a :: s, [], _, _, _, hlt, _ => by simp at hlt
  | n + 1, a :: s, b :: t, hss, hst, hls, hlt, hcnt => by
    have key : ∀ (x y : α) (u : List α), List.Sorted (· ≤ ·) (y :: u) →
        1 ≤ countLE x (y :: u) → y ≤ x := by
      intro x y u hsort hc
      have : 0 < List.countP (fun z => z ≤ x) (y :: u) := hc
      obtain ⟨z, hz, hzx⟩ := List.countP_pos_iff.mp this
      simp only [decide_eq_true_eq] at hzx
      rcases List.mem_cons.mp hz with rfl | hz
      · exact hzx
      · exact le_trans ((List.sorted_cons.mp hsort).1 z hz) hzx
    have hab : a = b := by
      have h1 : 1 ≤ countLE a (a :: s) := by
        rw [countLE_cons]; simp
      have h2 : 1 ≤ countLE b (b :: t) := by
        rw [countLE_cons]; simp
      have ha' : 1 ≤ countLE a (b :: t) := by
        have := hcnt a; omega
      have hb' : 1 ≤ countLE b (a :: s) := by
        have := hcnt b; omega
      exact le_antisymm (key b a s hss hb') (key a b t hst ha')
    subst hab
    have hs' := (List.sorted_cons.mp hss).2
    have ht' := (List.sorted_cons.mp hst).2
    have hcnt' : ∀ v, min n (countLE v s) = min n (countLE v t) := by
      intro v
      by_cases hav : a ≤ v
      · have := hcnt v
        rw [countLE_cons, countLE_cons] at this
        simp only [hav, if_pos] at this
        omega
      · have h1 : countLE v s = 0 := by
        -- every element of s is ≥ a > v
          rw [countLE, List.countP_eq_zero]
          intro x hx
          simp only [decide_eq_true_eq]
          exact fun hxv => hav (le_trans ((List.sorted_cons.mp hss).1 x hx) hxv)
        have h2 : countLE v t = 0 := by
          rw [countLE, List.countP_eq_zero]
          intro x hx
          simp only [decide_eq_true_eq]
          exact fun hxv => hav (le_trans ((List.sorted_cons.mp hst).1 x hx) hxv)
        rw [h1, h2]
    have htail := take_eq_of_sorted_of_countLE n s t hs' ht'
      (by simpa using hls) (by simpa using hlt) hcnt'
    simp [List.take_cons, htail]

/-- Index-value pairs of a list, indices starting at `k` (models the row
indices that `np.argsort` permutes). -/
def idxFrom {α : Type} (k : ℕ) : List α → List (ℕ × α)
  | [] => []
  | x :: xs => (k, x) :: idxFrom (k + 1) xs

theorem idxFrom_length {α : Type} (k : ℕ) (l : List α) :
    (idxFrom k l).length = l.length := by
  induction l generalizing k with
  | nil => rfl
  | cons x xs ih => simp [idxFrom, ih]

theorem idxFrom_map_snd {α : Type} (k : ℕ) (l : List α) :
    (idxFrom k l).map Prod.snd = l := by
  induction l generalizing k with
  | nil => rfl
  | cons x xs ih => simp [idxFrom, ih]

theorem idxFrom_map_fst {α : Type} (k : ℕ) (l : List α) :
    (idxFrom k l).map Prod.fst = (List.range l.length).map (fun i => k + i) := by
  induction l generalizing k with
  | nil => rfl
  | cons x xs ih =>
    simp only [idxFrom, List.map_cons, ih, List.length_cons,
      List.range_succ_eq_map, List.map_map]
    rw [List.cons_eq_cons]
    refine ⟨by omega, ?_⟩
    apply List.map_congr_left
    intro i _
    simp only [Function.comp_apply, Nat.succ_eq_add_one]
    omega

theorem idxFrom_mem_getD {α : Type} (d : α) :
    ∀ {l : List α} {k : ℕ} {p : ℕ × α}, p ∈ idxFrom k l →
      k ≤ p.1 ∧ l.getD (p.1 - k) d = p.2 := by
  intro l
  induction l with
  | nil => intro k p hp; simp [idxFrom] at hp
  | cons x xs ih =>
    intro k p hp
    rcases List.mem_cons.mp hp with rfl | hp
    · simp
    · obtain ⟨hk, hget⟩ := ih hp
      refine ⟨by omega, ?_⟩
      have : p.1 - k = (p.1 - (k + 1)) + 1 := by omega
      rw [this]
      simpa using hget

/-- Comparison of index-value pairs by value, as used to sort rows by the
discrepancy column. -/
def pairLe {α : Type} [LinearOrder α] (p q : ℕ × α) : Prop :=
  p.2 ≤ q.2

instance {α : Type} [LinearOrder α] : DecidableRel (pairLe (α := α)) :=
  fun p q => inferInstanceAs (Decidable (p.2 ≤ q.2))

instance {α : Type} [LinearOrder α] : IsTotal (ℕ × α) pairLe :=
  ⟨fun p q => le_total p.2 q.2⟩

instance {α : Type} [LinearOrder α] : IsTrans (ℕ × α) pairLe :=
  ⟨fun _ _ _ h₁ h₂ => le_trans h₁ h₂⟩

/-- Model of `np.argsort`: the list of row indices of `l` reordered so that
the corresponding values are ascending. -/
def argsort {α : Type} [LinearOrder α] (l : List α) : List ℕ :=
  ((idxFrom 0 l).insertionSort pairLe).map Prod.fst

/-- Model of NumPy fancy indexing `v[mask]`. -/
def applyMask {α : Type} (d : α) (mask : List ℕ) (l : List α) : List α :=
  mask.map (fun i => l.getD i d)

theorem argsort_perm_range {α : Type} [LinearOrder α] (l : List α) :
    (argsort l).Perm (List.range l.length) := by
  have h1 : ((idxFrom 0 l).insertionSort pairLe).Perm (idxFrom 0 l) :=
    List.perm_insertionSort _ _
  have h2 := h1.map Prod.fst
  rw [idxFrom_map_fst] at h2
  simpa using h2

theorem length_applyMask {α : Type} (d : α) (mask : List ℕ) (l : List α) :
    (applyMask d mask l).length = mask.length := by
  simp [applyMask]

theorem length_argsort {α : Type} [LinearOrder α] (l : List α) :
    (argsort l).length = l.length := by
  simp [argsort, List.length_insertionSort, idxFrom_length]

theorem applyMask_argsort_eq {α : Type} [LinearOrder α] (d : α) (l : List α) :
    applyMask d (argsort l) l = ((idxFrom 0 l).insertionSort pairLe).map Prod.snd := by
  rw [applyMask, argsort, List.map_map]
  apply List.map_congr_left
  intro p hp
  have hp' : p ∈ idxFrom 0 l := (List.perm_insertionSort pairLe _).mem_iff.mp hp
  have := (idxFrom_mem_getD d hp').2
  simpa using this

theorem applyMask_argsort_sorted {α : Type} [LinearOrder α] (d : α) (l : List α) :
    List.Sorted (· ≤ ·) (applyMask d (argsort l) l) := by
  rw [applyMask_argsort_eq]
  have hs : List.Sorted pairLe ((idxFrom 0 l).insertionSort pairLe) :=
    List.sorted_insertionSort pairLe _
  exact List.Pairwise.map Prod.snd (fun _ _ h => h) hs

theorem applyMask_argsort_perm {α : Type} [LinearOrder α] (d : α) (l : List α) :
    (applyMask d (argsort l) l).Perm l := by
  rw [applyMask_argsort_eq]
  have h1 : ((idxFrom 0 l).insertionSort pairLe).Perm (idxFrom 0 l) :=
    List.perm_insertionSort _ _
  have h2 := h1.map Prod.snd
  rwa [idxFrom_map_snd] at h2

/-- Model of a full ascending sort of a list of values. -/
def sortVals {α : Type} [LinearOrder α] (l : List α) : List α :=
  l.insertionSort (· ≤ ·)

theorem sortVals_sorted {α : Type} [LinearOrder α] (l : List α) :
    List.Sorted (· ≤ ·) (sortVals l) :=
  List.sorted_insertionSort _ _

theorem sortVals_perm {α : Type} [LinearOrder α] (l : List α) :
    (sortVals l).Perm l :=
  List.perm_insertionSort _ _

theorem sortVals_length {α : Type} [LinearOrder α] (l : List α) :
    (sortVals l).length = l.length :=
  List.length_insertionSort _ _

/-! ### BatchHandler (src/elfi/client.py)

Batch indices and task ids are Python ints, modelled as `ℤ`.  The
`OrderedDict` `_pending_batches` is modelled as an association list in
insertion order.  The client is abstracted by the two functions the handler
calls: `mkTask` (what `client.submit(load_data(...))` returns for a given
batch index) and `get` (the blocking `client.get(task_id)`); neither depends
on which task happened to complete first, exactly as in the source, where
`wait_next` never consults `is_ready`. -/

/-- State of a `BatchHandler`: the `_next_batch_index` counter and the
ordered mapping batch index → task id (`_pending_batches`). -/
structure BatchHandlerState where
  nextBatchIndex : ℤ
  pending : List (ℤ × ℤ)
deriving DecidableEq

/-- A freshly constructed handler: counter 0, nothing pending. -/
def BatchHandlerState.fresh : BatchHandlerState := ⟨0, []⟩

/-- Models `BatchHandler.submit`: allocate the next index, increment the
counter, submit to the client and record the pending task. -/
def BatchHandlerState.submit (mkTask : ℤ → ℤ) (s : BatchHandlerState) :
    BatchHandlerState :=
  { nextBatchIndex := s.nextBatchIndex + 1,
    pending := s.pending ++ [(s.nextBatchIndex, mkTask s.nextBatchIndex)] }

/-- Models `BatchHandler.wait_next`: `popitem(last=False)` pops the oldest
pending entry; the result is obtained by the blocking `client.get` on that
entry's task id.  `none` models the `KeyError` of popping an empty
`OrderedDict` (the spec makes non-emptiness a precondition).  The
`context.callback` call mutates only the pool, not the handler state. -/
def BatchHandlerState.waitNext {β : Type} (get : ℤ → β) (s : BatchHandlerState) :
    Option ((β × ℤ) × BatchHandlerState) :=
  match s.pending with
  | [] => none
  | (i, t) :: rest => some ((get t, i), { s with pending := rest })

/-- Models the body of `BatchHandler.has_pending`. -/
def BatchHandlerState.hasPendingVal (s : BatchHandlerState) : Bool :=
  s.pending.length > 0

/-- Repeated `wait_next` calls: the sequence of batch indices returned, with
enough fuel to drain the pending map. -/
def consumeOrder {β : Type} (get : ℤ → β) : ℕ → BatchHandlerState → List ℤ
  | 0, _ => []
  | fuel + 1, s =>
    match BatchHandlerState.waitNext get s with
    | none => []
    | some ((_, i), s') => i :: consumeOrder get fuel s'

/-- Repeatedly calling `submit` on a fresh handler. -/
def submitMany (mkTask : ℤ → ℤ) (s : BatchHandlerState) : ℕ → BatchHandlerState
  | 0 => s
  | n + 1 => BatchHandlerState.submit mkTask (submitMany mkTask s n)

/-- Invariant of submission: pending indices are strictly increasing (in
insertion order) and below the allocation counter. -/
theorem submitMany_pending_sorted (mkTask : ℤ → ℤ) (n : ℕ) :
    List.Pairwise (· < ·) ((submitMany mkTask BatchHandlerState.fresh n).pending.map Prod.fst) ∧
    ∀ p ∈ (submitMany mkTask BatchHandlerState.fresh n).pending,
      p.1 < (submitMany mkTask BatchHandlerState.fresh n).nextBatchIndex := by
  induction n with
  | zero => simp [submitMany, BatchHandlerState.fresh]
  | succ n ih =>
    obtain ⟨hpair, hlt⟩ := ih
    constructor
    · simp only [submitMany, BatchHandlerState.submit, List.map_append,
        List.pairwise_append]
      refine ⟨hpair, by simp, ?_⟩
      intro x hx y hy
      simp only [List.map_cons, List.map_nil, List.mem_cons,
        List.not_mem_nil, or_false] at hy
      subst hy
      obtain ⟨p, hp, rfl⟩ := List.mem_map.mp hx
      exact hlt p hp
    · intro p hp
      simp only [submitMany, BatchHandlerState.submit, List.mem_append,
        List.mem_cons, List.not_mem_nil, or_false] at hp
      rcases hp with hp | rfl
      · have := hlt p hp
        simp only [submitMany, BatchHandlerState.submit]
        omega
      · simp only [submitMany, BatchHandlerState.submit]
        omega

theorem consumeOrder_eq_pending {β : Type} (get : ℤ → β) :
    ∀ (fuel : ℕ) (s : BatchHandlerState), s.pending.length ≤ fuel →
      consumeOrder get fuel s = s.pending.map Prod.fst := by
  intro fuel
  induction fuel with
  | zero =>
    intro s hs
    have : s.pending = [] := List.length_eq_zero.mp (Nat.le_zero.mp hs)
    simp [consumeOrder, this]
  | succ fuel ih =>
    intro s hs
    match hp : s.pending with
    | [] => simp [consumeOrder, BatchHandlerState.waitNext, hp]
    | (i, t) :: rest =>
      have hlen : rest.length ≤ fuel := by
        have := hs; rw [hp] at this; simpa using this
      have := ih { s with pending := rest } hlen
      simp [consumeOrder, BatchHandlerState.waitNext, hp, this]

/-- C1: with a non-empty pending map whose indices are strictly increasing
in insertion order (the invariant established by `submit`), `wait_next`
pops and returns the result of the entry with the smallest batch index —
for every possible `get`, i.e. independently of which pending task the
client completed first — and repeated `wait_next` calls return batch
indices exactly in submission order. -/
theorem batchHandler_wait_next_fifo {β : Type} (get : ℤ → β)
    (s : BatchHandlerState)
    (hsorted : List.Pairwise (· < ·) (s.pending.map Prod.fst))
    (hne : s.pending ≠ []) :
    ∃ i t rest, s.pending = (i, t) :: rest ∧
      BatchHandlerState.waitNext get s = some ((get t, i), { s with pending := rest }) ∧
      (∀ p ∈ s.pending, i ≤ p.1) ∧
      (∀ fuel, s.pending.length ≤ fuel →
        consumeOrder get fuel s = s.pending.map Prod.fst) := by
  cases hp : s.pending with
  | nil => exact absurd hp hne
  | cons head rest =>
    obtain ⟨i, t⟩ := head
    refine ⟨i, t, rest, rfl, ?_, ?_, ?_⟩
    · unfold BatchHandlerState.waitNext
      rw [hp]
    · intro p hmem
      rw [hp] at hsorted
      simp only [List.map_cons, List.pairwise_cons] at hsorted
      rcases List.mem_cons.mp hmem with rfl | hm
      · exact le_refl _
      · exact le_of_lt (hsorted.1 p.1 (List.mem_map.mpr ⟨p, hm, rfl⟩))
    · intro fuel hfuel
      rw [← hp] at hfuel ⊢
      exact consumeOrder_eq_pending get fuel s hfuel

/-- Witness for C1 at a concrete handler with three pending batches 7, 8,
9: the theorem applies, so the oldest batch 7 is popped first and draining
returns the indices in submission order whatever the client's completion
order was. -/
theorem batchHandler_wait_next_fifo_witness :
    ∃ i t rest, ({ nextBatchIndex := 10, pending := [(7, 70), (8, 81), (9, 92)] } :
        BatchHandlerState).pending = (i, t) :: rest ∧
      BatchHandlerState.waitNext (fun tid => tid * 2)
          { nextBatchIndex := 10, pending := [(7, 70), (8, 81), (9, 92)] } =
        some (((fun tid => tid * 2) t, i),
          { ({ nextBatchIndex := 10, pending := [(7, 70), (8, 81), (9, 92)] } :
              BatchHandlerState) with pending := rest }) ∧
      (∀ p ∈ ({ nextBatchIndex := 10, pending := [(7, 70), (8, 81), (9, 92)] } :
          BatchHandlerState).pending, i ≤ p.1) ∧
      (∀ fuel, ({ nextBatchIndex := 10, pending := [(7, 70), (8, 81), (9, 92)] } :
          BatchHandlerState).pending.length ≤ fuel →
        consumeOrder (fun tid => tid * 2) fuel
            { nextBatchIndex := 10, pending := [(7, 70), (8, 81), (9, 92)] } =
          ({ nextBatchIndex := 10, pending := [(7, 70), (8, 81), (9, 92)] } :
            BatchHandlerState).pending.map Prod.fst) :=
  batchHandler_wait_next_fifo (fun tid => tid * 2)
    { nextBatchIndex := 10, pending := [(7, 70), (8, 81), (9, 92)] }
    (by decide) (by decide)

/-- Python exception kinds raised by the embedded code. -/
inductive PyErr
  | keyError
  | valueError
  | runtimeError
deriving DecidableEq

/-- Outcome of `BatchHandler.reset`: the exception raised (if any), the
handler state afterwards, and the task ids passed to `client.remove_task`
in call order. -/
structure ResetOutcome where
  raised : Option PyErr
  state : BatchHandlerState
  removedTasks : List ℤ
deriving DecidableEq

/-- One pass of the `for batch_index, id in self._pending_batches.items()`
loop of `BatchHandler.reset` under Python 3 semantics: entries with index
below the threshold are kept; at the first entry with index `≥ next_index`
the task is removed from the client and popped from the `OrderedDict`,
after which the live dict iterator's next `__next__` call raises
`RuntimeError` (`OrderedDict mutated during iteration`), ending the loop. -/
def resetScan (next_index : ℤ) : List (ℤ × ℤ) → Option PyErr × List (ℤ × ℤ) × List ℤ
  | [] => (none, [], [])
  | (i, tid) :: rest =>
    if next_index ≤ i then (some PyErr.runtimeError, rest, [tid])
    else
      let r := resetScan next_index rest
      (r.1, (i, tid) :: r.2.1, r.2.2)

/-- Models `BatchHandler.reset` (client.py lines 82-89): guard against a
negative `next_index`, iterate over the pending `OrderedDict` cancelling
entries with index `≥ next_index`, then set `_next_batch_index`.  The
counter assignment is only reached when the loop finishes without raising,
i.e. when no entry matched. -/
def BatchHandlerState.reset (s : BatchHandlerState) (next_index : ℤ) : ResetOutcome :=
  if next_index < 0 then ⟨some PyErr.valueError, s, []⟩
  else
    let r := resetScan next_index s.pending
    match r.1 with
    | some e => ⟨some e, { s with pending := r.2.1 }, r.2.2⟩
    | none => ⟨none, { nextBatchIndex := next_index, pending := r.2.1 }, r.2.2⟩

/-- C3 at the spec's own test input: five pending batches 0..4 and
`reset(2)`.  The code removes only batch 2's task, then the mutated-dict
iterator raises `RuntimeError`; batches 3 and 4 stay pending and the
allocation counter is never set to 2 — the claimed behaviour (remove 2,3,4,
keep {0,1}, counter 2, no error) does not occur. -/
theorem batchHandler_reset_raises :
    BatchHandlerState.reset ⟨5, [(0, 10), (1, 11), (2, 12), (3, 13), (4, 14)]⟩ 2 =
      ⟨some PyErr.runtimeError, ⟨5, [(0, 10), (1, 11), (3, 13), (4, 14)]⟩, [12]⟩ := by
  decide

/-! ### ComputationContext (src/elfi/model/elfi_model.py) -/

/-- State of a `ComputationContext` (the fields relevant to the claims). -/
structure ComputationContextState where
  seed : ℤ
  batch_size : ℤ
deriving DecidableEq

/-- Models `ComputationContext.__init__`: `seed` defaults to a fresh random
integer when `None`; `batch_size` is set by `batch_size or 1`, so the
falsy arguments `None` and `0` become 1 while every other integer —
including a negative one — is stored unchanged. -/
def ComputationContext.construct (seed : Option ℤ) (freshSeed : ℤ)
    (batch_size : Option ℤ) : ComputationContextState :=
  { seed := match seed with | none => freshSeed | some s => s,
    batch_size := match batch_size with
      | none => 1
      | some b => if b = 0 then 1 else b }

/-- Models `ComputationContext.copy` (`copy.copy(self)`). -/
def ComputationContextState.copy (c : ComputationContextState) : ComputationContextState := c

/-- C9 counterexample: constructing a context with `batch_size = -1` stores
`-1`, so the stored batch size is an integer smaller than 1. -/
theorem computationContext_neg_batch_size :
    (ComputationContext.construct none 0 (some (-1))).batch_size = -1 ∧
      ¬ (1 ≤ (ComputationContext.construct none 0 (some (-1))).batch_size) := by
  decide

/-- C9 amended: whenever the `batch_size` argument is `None`, zero or a
positive integer, the stored batch size is at least 1, and copying the
context preserves it; a negative argument, however, is stored unchanged. -/
theorem computationContext_batch_size_ge_one (seed : Option ℤ) (freshSeed : ℤ)
    (b? : Option ℤ) (h : b? = none ∨ ∃ b, b? = some b ∧ 0 ≤ b) :
    1 ≤ (ComputationContext.construct seed freshSeed b?).batch_size ∧
      (ComputationContext.construct seed freshSeed b?).copy.batch_size =
        (ComputationContext.construct seed freshSeed b?).batch_size := by
  refine ⟨?_, rfl⟩
  rcases h with rfl | ⟨b, rfl, hb⟩
  · simp [ComputationContext.construct]
  · simp only [ComputationContext.construct]
    by_cases hb0 : b = 0
    · simp [hb0]
    · simp only [if_neg hb0]
      omega

/-- Witness for C9's amended theorem at `batch_size = 0`. -/
theorem computationContext_batch_size_ge_one_witness :
    1 ≤ (ComputationContext.construct none 3 (some 0)).batch_size ∧
      (ComputationContext.construct none 3 (some 0)).copy.batch_size =
        (ComputationContext.construct none 3 (some 0)).batch_size :=
  computationContext_batch_size_ge_one none 3 (some 0) (Or.inr ⟨0, rfl, le_refl 0⟩)

/-! ### Rejection sampler (src/elfi/methods/parameter_inference.py)

Output values are machine floats used only in order comparisons and exact
rational arithmetic, modelled as `WithTop ℚ` with `⊤` playing `np.inf`.
The `state['samples']` dict of per-output arrays is modelled as the
discrepancy column (`samples[self.discrepancy_name]`) together with the
list of the remaining output columns; `np.argsort` of the discrepancy
column followed by `v[:] = v[sort_mask]` on every column is modelled by
`argsort`/`applyMask` above. -/

/-- Float values produced by the model: `np.inf` is `⊤`. -/
abbrev NpVal := WithTop ℚ

/-- One received batch: the discrepancy output column and the remaining
requested output columns, each of length `batch_size`. -/
structure RejBatch where
  disc : List NpVal
  others : List (List NpVal)
deriving DecidableEq

/-- Data fixed by `Rejection.set_objective`: `n_samples`, the context
`batch_size`, the optional explicit acceptance threshold
(`objective['threshold']`) and the initial `objective['n_batches']`. -/
structure RejParams where
  n_samples : ℕ
  batch_size : ℕ
  threshold : Option NpVal
  initNBatches : ℤ
deriving DecidableEq

/-- Mutable state of the Rejection sampler: the sample buffer columns, the
recorded `threshold` and `accept_rate`, the base-class counters `n_sim`
and `n_batches`, and the adaptive `objective['n_batches']`. -/
structure RejState where
  disc : List NpVal
  others : List (List NpVal)
  threshold : NpVal
  accept_rate : ℚ
  n_sim : ℕ
  n_batches : ℕ
  objNBatches : ℤ
deriving DecidableEq

/-- Models `Rejection._init_samples_lazy` on a batch that passed its
checks, combined with the `state` initialised by `set_objective`
(`threshold=np.Inf`, `accept_rate=1`, `n_sim=0`, `n_batches=0`): the
discrepancy column holds `n_samples + batch_size` copies of `np.inf`; the
other columns are `np.empty` arrays whose indeterminate contents are
modelled as zeros (they are overwritten or sorted past by later merges,
and no claim depends on them). -/
def rejInitState (p : RejParams) (b : RejBatch) : RejState :=
  { disc := List.replicate (p.n_samples + p.batch_size) ⊤,
    others := b.others.map (fun _ => List.replicate (p.n_samples + p.batch_size) 0),
    threshold := ⊤,
    accept_rate := 1,
    n_sim := 0,
    n_batches := 0,
    objNBatches := p.initNBatches }

/-- Models `ParameterInference.update`: the base-class bookkeeping
`n_batches += 1; n_sim += batch_size` done at the start of
`Rejection.update`. -/
def baseUpdate (p : RejParams) (st : RejState) : RejState :=
  { st with n_batches := st.n_batches + 1, n_sim := st.n_sim + p.batch_size }

/-- Models `Rejection._merge_batch`: write the batch rows past the first
`n_samples` slots of every buffer column (`v[n_samples:] = batch[node]`),
then compute `sort_mask = np.argsort(samples[discrepancy_name])` and
permute every column by it (`v[:] = v[sort_mask]`). -/
def rejMergeBatch (p : RejParams) (st : RejState) (b : RejBatch) : RejState :=
  let mergedDisc := st.disc.take p.n_samples ++ b.disc
  let mergedOthers := (st.others.zip b.others).map
    (fun c => c.1.take p.n_samples ++ c.2)
  let mask := argsort mergedDisc
  { st with
    disc := applyMask ⊤ mask mergedDisc,
    others := mergedOthers.map (applyMask ⊤ mask) }

/-- Models `Rejection._update_state_meta`: `threshold` is the buffer
discrepancy at index `n_samples - 1`, `accept_rate` is
`min(1, n_samples / n_sim)`. -/
def rejUpdateStateMeta (p : RejParams) (st : RejState) : RejState :=
  { st with
    threshold := st.disc.getD (p.n_samples - 1) ⊤,
    accept_rate := min 1 ((p.n_samples : ℚ) / (st.n_sim : ℚ)) }

/-- Models `Rejection._update_objective_n_batches`: only active when an
explicit threshold is set; counts the buffered discrepancies `≤ t`
(`np.sum(samples <= t)`; the samples dict is non-empty here, having been
initialised by the first update); if none, bump `objective['n_batches']`
by one, otherwise re-estimate it as
`ceil((n_samples / accept_rate_t + margin) / batch_size)` with
`margin = .2 * batch_size * int(n_acceptable < n_samples)`. -/
def rejUpdateObjectiveNBatches (p : RejParams) (st : RejState) : RejState :=
  match p.threshold with
  | none => st
  | some t =>
    let n_acceptable := countLE t st.disc
    let n_batches : ℤ :=
      if n_acceptable = 0 then st.objNBatches + 1
      else
        let accept_rate_t : ℚ := (n_acceptable : ℚ) / (st.n_sim : ℚ)
        let margin : ℚ := 2 / 10 * (p.batch_size : ℚ) *
          (if n_acceptable < p.n_samples then 1 else 0)
        ⌈((p.n_samples : ℚ) / accept_rate_t + margin) / (p.batch_size : ℚ)⌉
    { st with objNBatches := n_batches }

/-- Models `Rejection.update` on an initialised state: base bookkeeping,
then `_merge_batch`, `_update_state_meta`, `_update_objective_n_batches`. -/
def rejUpdate (p : RejParams) (st : RejState) (b : RejBatch) : RejState :=
  rejUpdateObjectiveNBatches p (rejUpdateStateMeta p (rejMergeBatch p (baseUpdate p st) b))

/-- Models the sequence of `Rejection.update` calls on the received
batches; the first call performs the lazy initialisation. -/
def rejRun (p : RejParams) : List RejBatch → Option RejState
  | [] => none
  | b :: rest => some (rest.foldl (rejUpdate p) (rejUpdate p (rejInitState p b) b))

/-- Models `Rejection.extract_result`'s selection `v[:n_samples]` on the
discrepancy column. -/
def rejExtractDisc (p : RejParams) (st : RejState) : List NpVal :=
  st.disc.take p.n_samples

/-- Discrepancy values delivered by a list of batches, in order. -/
def seenDisc (batches : List RejBatch) : List NpVal :=
  (batches.map RejBatch.disc).flatten

/-- The reference list for the buffer contents after `k` updates: the
`n_samples` `np.inf` pad values plus everything seen so far. -/
def refDisc (p : RejParams) (batches : List RejBatch) (k : ℕ) : List NpVal :=
  List.replicate p.n_samples ⊤ ++ seenDisc (batches.take k)

theorem rejUpdateObjectiveNBatches_disc (p : RejParams) (st : RejState) :
    (rejUpdateObjectiveNBatches p st).disc = st.disc := by
  rw [rejUpdateObjectiveNBatches]
  cases p.threshold <;> rfl

theorem rejUpdateObjectiveNBatches_others (p : RejParams) (st : RejState) :
    (rejUpdateObjectiveNBatches p st).others = st.others := by
  rw [rejUpdateObjectiveNBatches]
  cases p.threshold <;> rfl

theorem rejUpdateObjectiveNBatches_threshold (p : RejParams) (st : RejState) :
    (rejUpdateObjectiveNBatches p st).threshold = st.threshold := by
  rw [rejUpdateObjectiveNBatches]
  cases p.threshold <;> rfl

theorem rejUpdateObjectiveNBatches_accept_rate (p : RejParams) (st : RejState) :
    (rejUpdateObjectiveNBatches p st).accept_rate = st.accept_rate := by
  rw [rejUpdateObjectiveNBatches]
  cases p.threshold <;> rfl

theorem rejUpdateObjectiveNBatches_n_sim (p : RejParams) (st : RejState) :
    (rejUpdateObjectiveNBatches p st).n_sim = st.n_sim := by
  rw [rejUpdateObjectiveNBatches]
  cases p.threshold <;> rfl

theorem rejUpdateObjectiveNBatches_n_batches (p : RejParams) (st : RejState) :
    (rejUpdateObjectiveNBatches p st).n_batches = st.n_batches := by
  rw [rejUpdateObjectiveNBatches]
  cases p.threshold <;> rfl

theorem rejUpdate_disc (p : RejParams) (st : RejState) (b : RejBatch) :
    (rejUpdate p st b).disc =
      applyMask ⊤ (argsort (st.disc.take p.n_samples ++ b.disc))
        (st.disc.take p.n_samples ++ b.disc) := by
  rw [rejUpdate, rejUpdateObjectiveNBatches_disc]
  rfl

theorem rejUpdate_others (p : RejParams) (st : RejState) (b : RejBatch) :
    (rejUpdate p st b).others =
      ((st.others.zip b.others).map (fun c => c.1.take p.n_samples ++ c.2)).map
        (applyMask ⊤ (argsort (st.disc.take p.n_samples ++ b.disc))) := by
  rw [rejUpdate, rejUpdateObjectiveNBatches_others]
  rfl

theorem rejUpdate_threshold (p : RejParams) (st : RejState) (b : RejBatch) :
    (rejUpdate p st b).threshold = (rejUpdate p st b).disc.getD (p.n_samples - 1) ⊤ := by
  rw [rejUpdate, rejUpdateObjectiveNBatches_threshold, rejUpdateObjectiveNBatches_disc]
  rfl

theorem rejUpdate_n_sim (p : RejParams) (st : RejState) (b : RejBatch) :
    (rejUpdate p st b).n_sim = st.n_sim + p.batch_size := by
  rw [rejUpdate, rejUpdateObjectiveNBatches_n_sim]
  rfl

theorem rejUpdate_n_batches (p : RejParams) (st : RejState) (b : RejBatch) :
    (rejUpdate p st b).n_batches = st.n_batches + 1 := by
  rw [rejUpdate, rejUpdateObjectiveNBatches_n_batches]
  rfl

theorem rejUpdate_accept_rate (p : RejParams) (st : RejState) (b : RejBatch) :
    (rejUpdate p st b).accept_rate =
      min 1 ((p.n_samples : ℚ) / ((st.n_sim + p.batch_size : ℕ) : ℚ)) := by
  rw [rejUpdate, rejUpdateObjectiveNBatches_accept_rate]
  rfl

theorem rejUpdate_objNBatches (p : RejParams) (st : RejState) (b : RejBatch) (t : NpVal)
    (ht : p.threshold = some t) :
    (rejUpdate p st b).objNBatches =
      if countLE t (rejUpdate p st b).disc = 0 then st.objNBatches + 1
      else
        ⌈((p.n_samples : ℚ) / ((countLE t (rejUpdate p st b).disc : ℚ) /
            ((st.n_sim + p.batch_size : ℕ) : ℚ)) +
          2 / 10 * (p.batch_size : ℚ) *
            (if countLE t (rejUpdate p st b).disc < p.n_samples then 1 else 0)) /
          (p.batch_size : ℚ)⌉ := by
  conv_lhs => rw [rejUpdate, rejUpdateObjectiveNBatches]
  rw [ht]
  have hdisc : (rejUpdate p st b).disc =
      (rejUpdateStateMeta p (rejMergeBatch p (baseUpdate p st) b)).disc := by
    rw [rejUpdate, rejUpdateObjectiveNBatches_disc]
  rw [hdisc]
  rfl

/-- Invariant of the Rejection buffer after `k` updates that have seen the
discrepancy values `seen`: full buffer length, sortedness, the base-class
counters, and the truncated-count characterisation of the buffer contents
relative to the `np.inf` pads plus everything seen. -/
def rejInv (p : RejParams) (k : ℕ) (seen : List NpVal) (st : RejState) : Prop :=
  st.disc.length = p.n_samples + p.batch_size ∧
  List.Sorted (· ≤ ·) st.disc ∧
  st.n_sim = k * p.batch_size ∧
  st.n_batches = k ∧
  ∀ v, min p.n_samples (countLE v st.disc) =
    min p.n_samples (countLE v (List.replicate p.n_samples ⊤ ++ seen))

theorem rejInit_inv (p : RejParams) (b : RejBatch) :
    rejInv p 0 [] (rejInitState p b) := by
  refine ⟨by simp [rejInitState], ?_, by simp [rejInitState], by simp [rejInitState], ?_⟩
  · exact List.pairwise_replicate.mpr (Or.inr le_rfl)
  · intro v
    simp only [rejInitState, List.append_nil]
    rw [countLE, countLE, List.countP_replicate, List.countP_replicate]
    by_cases h : (⊤ : NpVal) ≤ v
    · simp [h]
    · simp [h]

theorem rejUpdate_inv (p : RejParams) (st : RejState) (b : RejBatch) (k : ℕ)
    (seen : List NpVal) (hb : b.disc.length = p.batch_size)
    (h : rejInv p k seen st) :
    rejInv p (k + 1) (seen ++ b.disc) (rejUpdate p st b) := by
  obtain ⟨hlen, hsort, hsim, hnb, hcnt⟩ := h
  have hmlen : (st.disc.take p.n_samples ++ b.disc).length =
      p.n_samples + p.batch_size := by
    rw [List.length_append, List.length_take, hlen, hb]
    omega
  have hdisc := rejUpdate_disc p st b
  have hperm : (rejUpdate p st b).disc.Perm (st.disc.take p.n_samples ++ b.disc) := by
    rw [hdisc]; exact applyMask_argsort_perm ⊤ _
  refine ⟨?_, ?_, ?_, ?_, ?_⟩
  · rw [hdisc, length_applyMask, length_argsort, hmlen]
  · rw [hdisc]; exact applyMask_argsort_sorted ⊤ _
  · rw [rejUpdate_n_sim, hsim, Nat.succ_mul]
  · rw [rejUpdate_n_batches, hnb]
  · intro v
    have h1 := countLE_perm v hperm
    have h2 : countLE v (st.disc.take p.n_samples ++ b.disc) =
        min p.n_samples (countLE v st.disc) + countLE v b.disc := by
      rw [countLE_append, countLE_take_of_sorted hsort]
    have h3 : countLE v (List.replicate p.n_samples ⊤ ++ (seen ++ b.disc)) =
        countLE v (List.replicate p.n_samples ⊤ ++ seen) + countLE v b.disc := by
      rw [← List.append_assoc, countLE_append]
    have h4 := hcnt v
    omega

theorem seenDisc_cons (b : RejBatch) (rest : List RejBatch) :
    seenDisc (b :: rest) = b.disc ++ seenDisc rest := by
  simp [seenDisc]

theorem seenDisc_length (bs : ℕ) :
    ∀ (l : List RejBatch), (∀ b ∈ l, b.disc.length = bs) →
      (seenDisc l).length = l.length * bs
  | [], _ => by simp [seenDisc]
  | b :: rest, hwf => by
    rw [seenDisc_cons, List.length_append,
      seenDisc_length bs rest (fun x hx => hwf x (List.mem_cons_of_mem _ hx)),
      hwf b (List.mem_cons_self _ _), List.length_cons]
    ring

theorem rejFoldl_inv (p : RejParams) :
    ∀ (rest : List RejBatch) (st : RejState) (k : ℕ) (seen : List NpVal),
      (∀ b ∈ rest, b.disc.length = p.batch_size) →
      rejInv p k seen st →
      rejInv p (k + rest.length) (seen ++ seenDisc rest) (rest.foldl (rejUpdate p) st)
  | [], st, k, seen, _, h => by simpa [seenDisc] using h
  | b :: rest, st, k, seen, hwf, h => by
    have h1 := rejUpdate_inv p st b k seen (hwf b (List.mem_cons_self _ _)) h
    have h2 := rejFoldl_inv p rest (rejUpdate p st b) (k + 1) (seen ++ b.disc)
      (fun x hx => hwf x (List.mem_cons_of_mem _ hx)) h1
    have hk : k + 1 + rest.length = k + (b :: rest).length := by
      rw [List.length_cons]
      omega
    rw [← hk, seenDisc_cons, ← List.append_assoc]
    exact h2

theorem foldl_rejUpdate_shape (p : RejParams) :
    ∀ (l : List RejBatch) (s0 : RejState) (b0 : RejBatch),
      ∃ s b, l.foldl (rejUpdate p) (rejUpdate p s0 b0) = rejUpdate p s b
  | [], s0, b0 => ⟨s0, b0, rfl⟩
  | b :: rest, s0, b0 => by
    simpa using foldl_rejUpdate_shape p rest (rejUpdate p s0 b0) b

/-- Core run lemma: after `k ≥ 1` updates the buffer invariant holds and the
recorded threshold and accept rate follow the `_update_state_meta`
formulas. -/
theorem rejRun_inv (p : RejParams) (batches : List RejBatch)
    (hwf : ∀ b ∈ batches, b.disc.length = p.batch_size)
    (k : ℕ) (hk1 : 1 ≤ k) (hk2 : k ≤ batches.length) :
    ∃ st, rejRun p (batches.take k) = some st ∧
      rejInv p k (seenDisc (batches.take k)) st ∧
      st.threshold = st.disc.getD (p.n_samples - 1) ⊤ ∧
      st.accept_rate = min 1 ((p.n_samples : ℚ) / ((st.n_sim : ℕ) : ℚ)) := by
  match batches, hk2 with
  | [], hk2 =>
    simp only [List.length_nil] at hk2
    omega
  | b0 :: rest, hk2 =>
    have htake : (b0 :: rest).take k = b0 :: rest.take (k - 1) := by
      cases k with
      | zero => omega
      | succ m => simp
    have hlen : (rest.take (k - 1)).length = k - 1 := by
      rw [List.length_take]
      simp only [List.length_cons] at hk2
      omega
    have hst1 : rejInv p 1 ([] ++ b0.disc)
        (rejUpdate p (rejInitState p b0) b0) :=
      rejUpdate_inv p _ b0 0 [] (hwf b0 (List.mem_cons_self _ _)) (rejInit_inv p b0)
    have hfold := rejFoldl_inv p (rest.take (k - 1))
      (rejUpdate p (rejInitState p b0) b0) 1 ([] ++ b0.disc)
      (fun x hx => hwf x (List.mem_cons_of_mem _ ((List.take_sublist _ _).mem hx)))
      hst1
    rw [hlen] at hfold
    have hk' : 1 + (k - 1) = k := by omega
    rw [hk'] at hfold
    obtain ⟨s, b, hshape⟩ := foldl_rejUpdate_shape p (rest.take (k - 1))
      (rejInitState p b0) b0
    refine ⟨(rest.take (k - 1)).foldl (rejUpdate p) (rejUpdate p (rejInitState p b0) b0),
      ?_, ?_, ?_, ?_⟩
    · rw [htake]; rfl
    · have : [] ++ b0.disc ++ seenDisc (rest.take (k - 1)) =
          seenDisc ((b0 :: rest).take k) := by
        rw [htake, seenDisc_cons]
        simp
      rw [← this]
      exact hfold
    · rw [hshape]
      exact rejUpdate_threshold p s b
    · rw [hshape, rejUpdate_accept_rate, rejUpdate_n_sim]

theorem extract_of_inv (p : RejParams) (k : ℕ) (seen : List NpVal) (st : RejState)
    (h : rejInv p k seen st) :
    st.disc.take p.n_samples =
      (sortVals (List.replicate p.n_samples ⊤ ++ seen)).take p.n_samples := by
  obtain ⟨hlen, hsort, -, -, hcnt⟩ := h
  apply take_eq_of_sorted_of_countLE p.n_samples _ _ hsort (sortVals_sorted _)
  · rw [hlen]; omega
  · rw [sortVals_length, List.length_append, List.length_replicate]; omega
  · intro v
    rw [countLE_perm v (sortVals_perm _)]
    exact hcnt v

theorem sortVals_pad_take (n : ℕ) (seen : List NpVal) (h : n ≤ seen.length) :
    (sortVals (List.replicate n ⊤ ++ seen)).take n = (sortVals seen).take n := by
  apply take_eq_of_sorted_of_countLE n _ _ (sortVals_sorted _) (sortVals_sorted _)
  · rw [sortVals_length, List.length_append, List.length_replicate]; omega
  · rw [sortVals_length]; omega
  · intro v
    rw [countLE_perm v (sortVals_perm _), countLE_perm v (sortVals_perm _),
      countLE_append]
    by_cases hv : (⊤ : NpVal) ≤ v
    · have hall : countLE v seen = seen.length := by
        rw [countLE, List.countP_eq_length]
        intro a _
        simp only [decide_eq_true_eq]
        exact le_trans le_top hv
      have hrep : countLE v (List.replicate n ⊤) = n := by
        rw [countLE, List.countP_replicate]
        simp [hv]
      rw [hall, hrep]
      omega
    · have hrep : countLE v (List.replicate n ⊤) = 0 := by
        rw [countLE, List.countP_replicate]
        simp [hv]
      rw [hrep]
      omega

/-- C2: after every one of the first `k ≥ 1` updates (here: after the
`k`-th), the Rejection sample buffer of size `n_samples + batch_size` is
sorted ascending by the discrepancy column; every update permutes all
output columns by one and the same `np.argsort` mask of the merged buffer,
and that mask is a permutation of the row indices; the recorded threshold
is the buffer discrepancy at rank `n_samples - 1`; the recorded accept
rate is `min(1, n_samples / n_sim)` with `n_sim = k * batch_size`; and the
extracted result holds exactly the `n_samples` smallest discrepancies seen
so far in ascending order (with `np.inf` pads standing in while fewer than
`n_samples` simulations exist). -/
theorem rejection_buffer_sorted_extract (p : RejParams) (_hn : 1 ≤ p.n_samples)
    (hbs : 1 ≤ p.batch_size) (batches : List RejBatch)
    (hwf : ∀ b ∈ batches, b.disc.length = p.batch_size)
    (k : ℕ) (hk1 : 1 ≤ k) (hk2 : k ≤ batches.length) :
    ∃ st, rejRun p (batches.take k) = some st ∧
      st.disc.length = p.n_samples + p.batch_size ∧
      List.Sorted (· ≤ ·) st.disc ∧
      (∀ (st0 : RejState) (b : RejBatch),
        (rejUpdate p st0 b).disc =
          applyMask ⊤ (argsort (st0.disc.take p.n_samples ++ b.disc))
            (st0.disc.take p.n_samples ++ b.disc) ∧
        (rejUpdate p st0 b).others =
          ((st0.others.zip b.others).map (fun c => c.1.take p.n_samples ++ c.2)).map
            (applyMask ⊤ (argsort (st0.disc.take p.n_samples ++ b.disc))) ∧
        (st0.disc.length = p.n_samples + p.batch_size →
          b.disc.length = p.batch_size →
          (argsort (st0.disc.take p.n_samples ++ b.disc)).Perm
            (List.range (p.n_samples + p.batch_size)))) ∧
      st.threshold = st.disc.getD (p.n_samples - 1) ⊤ ∧
      st.n_sim = k * p.batch_size ∧
      st.accept_rate = min 1 ((p.n_samples : ℚ) / ((k * p.batch_size : ℕ) : ℚ)) ∧
      rejExtractDisc p st = (sortVals (refDisc p batches k)).take p.n_samples ∧
      List.Sorted (· ≤ ·) (rejExtractDisc p st) ∧
      (p.n_samples ≤ k * p.batch_size →
        rejExtractDisc p st =
          (sortVals (seenDisc (batches.take k))).take p.n_samples) := by
  obtain ⟨st, hrun, hinv, hthr, hacc⟩ := rejRun_inv p batches hwf k hk1 hk2
  obtain ⟨hlen, hsort, hsim, hnb, hcnt⟩ := hinv
  have hext : rejExtractDisc p st = (sortVals (refDisc p batches k)).take p.n_samples :=
    extract_of_inv p k (seenDisc (batches.take k)) st ⟨hlen, hsort, hsim, hnb, hcnt⟩
  have hseenlen : (seenDisc (batches.take k)).length = k * p.batch_size := by
    have := seenDisc_length p.batch_size (batches.take k)
      (fun b hb => hwf b ((List.take_sublist _ _).mem hb))
    rw [this, List.length_take]
    have : min k batches.length = k := by omega
    rw [this]
  refine ⟨st, hrun, hlen, hsort, ?_, hthr, hsim, ?_, hext, sorted_take hsort _, ?_⟩
  · intro st0 b
    refine ⟨rejUpdate_disc p st0 b, rejUpdate_others p st0 b, ?_⟩
    intro h1 h2
    have hml : (st0.disc.take p.n_samples ++ b.disc).length =
        p.n_samples + p.batch_size := by
      rw [List.length_append, List.length_take, h1, h2]
      omega
    have hp := argsort_perm_range (st0.disc.take p.n_samples ++ b.disc)
    rwa [hml] at hp
  · rw [hacc, hsim]
  · intro henough
    rw [hext, refDisc, sortVals_pad_take]
    rw [hseenlen]
    exact henough

/-- Witness for C2 at `n_samples = 1`, `batch_size = 1` and the single
batch with discrepancy value 5. -/
theorem rejection_buffer_sorted_extract_witness :
    ∃ st, rejRun ⟨1, 1, none, 0⟩ (([⟨[((5 : ℚ) : NpVal)], []⟩] : List RejBatch).take 1) =
        some st ∧
      st.disc.length = 1 + 1 ∧
      List.Sorted (· ≤ ·) st.disc ∧
      (∀ (st0 : RejState) (b : RejBatch),
        (rejUpdate ⟨1, 1, none, 0⟩ st0 b).disc =
          applyMask ⊤ (argsort (st0.disc.take 1 ++ b.disc))
            (st0.disc.take 1 ++ b.disc) ∧
        (rejUpdate ⟨1, 1, none, 0⟩ st0 b).others =
          ((st0.others.zip b.others).map (fun c => c.1.take 1 ++ c.2)).map
            (applyMask ⊤ (argsort (st0.disc.take 1 ++ b.disc))) ∧
        (st0.disc.length = 1 + 1 → b.disc.length = 1 →
          (argsort (st0.disc.take 1 ++ b.disc)).Perm (List.range (1 + 1)))) ∧
      st.threshold = st.disc.getD (1 - 1) ⊤ ∧
      st.n_sim = 1 * 1 ∧
      st.accept_rate = min 1 (((1 : ℕ) : ℚ) / ((1 * 1 : ℕ) : ℚ)) ∧
      rejExtractDisc ⟨1, 1, none, 0⟩ st =
        (sortVals (refDisc ⟨1, 1, none, 0⟩ [⟨[((5 : ℚ) : NpVal)], []⟩] 1)).take 1 ∧
      List.Sorted (· ≤ ·) (rejExtractDisc ⟨1, 1, none, 0⟩ st) ∧
      (1 ≤ 1 * 1 →
        rejExtractDisc ⟨1, 1, none, 0⟩ st =
          (sortVals (seenDisc (([⟨[((5 : ℚ) : NpVal)], []⟩] : List RejBatch).take 1))).take 1) :=
  rejection_buffer_sorted_extract ⟨1, 1, none, 0⟩ (by decide) (by decide)
    [⟨[((5 : ℚ) : NpVal)], []⟩] (by decide) 1 (by decide) (by decide)

/-- C5: with an explicit acceptance threshold, each update either bumps the
`n_batches` objective by exactly one (when no buffered sample is at or
under the threshold) or re-estimates it as
`ceil((n_samples / observed_rate + margin) / batch_size)` where the
observed rate is `n_acceptable / n_sim` and the margin is
`0.2 * batch_size` exactly while fewer than `n_samples` acceptable samples
exist. -/
theorem rejection_adaptive_objective (p : RejParams) (st : RejState) (b : RejBatch)
    (t : NpVal) (ht : p.threshold = some t) :
    (countLE t (rejUpdate p st b).disc = 0 →
      (rejUpdate p st b).objNBatches = st.objNBatches + 1) ∧
    (0 < countLE t (rejUpdate p st b).disc →
      (rejUpdate p st b).objNBatches =
        ⌈((p.n_samples : ℚ) / ((countLE t (rejUpdate p st b).disc : ℚ) /
            (((rejUpdate p st b).n_sim : ℕ) : ℚ)) +
          (if countLE t (rejUpdate p st b).disc < p.n_samples
            then 2 / 10 * (p.batch_size : ℚ) else 0)) / (p.batch_size : ℚ)⌉) := by
  have h := rejUpdate_objNBatches p st b t ht
  rw [rejUpdate_n_sim]
  constructor
  · intro h0
    rw [h, if_pos h0]
  · intro h0
    have hne : ¬ countLE t (rejUpdate p st b).disc = 0 := by omega
    rw [h, if_neg hne]
    congr 2
    by_cases hlt : countLE t (rejUpdate p st b).disc < p.n_samples
    · simp [hlt]
    · simp [hlt]

/-- Witness for C5: threshold 3, two required samples, one batch of size
one with discrepancy 1. -/
theorem rejection_adaptive_objective_witness :
    (countLE ((3 : ℚ) : NpVal)
        (rejUpdate ⟨2, 1, some ((3 : ℚ) : NpVal), 7⟩
          ⟨[⊤, ⊤, ⊤], [], ⊤, 1, 0, 0, 7⟩ ⟨[((1 : ℚ) : NpVal)], []⟩).disc = 0 →
      (rejUpdate ⟨2, 1, some ((3 : ℚ) : NpVal), 7⟩
          ⟨[⊤, ⊤, ⊤], [], ⊤, 1, 0, 0, 7⟩ ⟨[((1 : ℚ) : NpVal)], []⟩).objNBatches =
        (7 : ℤ) + 1) ∧
    (0 < countLE ((3 : ℚ) : NpVal)
        (rejUpdate ⟨2, 1, some ((3 : ℚ) : NpVal), 7⟩
          ⟨[⊤, ⊤, ⊤], [], ⊤, 1, 0, 0, 7⟩ ⟨[((1 : ℚ) : NpVal)], []⟩).disc →
      (rejUpdate ⟨2, 1, some ((3 : ℚ) : NpVal), 7⟩
          ⟨[⊤, ⊤, ⊤], [], ⊤, 1, 0, 0, 7⟩ ⟨[((1 : ℚ) : NpVal)], []⟩).objNBatches =
        ⌈(((2 : ℕ) : ℚ) / ((countLE ((3 : ℚ) : NpVal)
            (rejUpdate ⟨2, 1, some ((3 : ℚ) : NpVal), 7⟩
              ⟨[⊤, ⊤, ⊤], [], ⊤, 1, 0, 0, 7⟩ ⟨[((1 : ℚ) : NpVal)], []⟩).disc : ℚ) /
            (((rejUpdate ⟨2, 1, some ((3 : ℚ) : NpVal), 7⟩
              ⟨[⊤, ⊤, ⊤], [], ⊤, 1, 0, 0, 7⟩ ⟨[((1 : ℚ) : NpVal)], []⟩).n_sim : ℕ) : ℚ)) +
          (if countLE ((3 : ℚ) : NpVal)
              (rejUpdate ⟨2, 1, some ((3 : ℚ) : NpVal), 7⟩
                ⟨[⊤, ⊤, ⊤], [], ⊤, 1, 0, 0, 7⟩ ⟨[((1 : ℚ) : NpVal)], []⟩).disc < 2
            then 2 / 10 * ((1 : ℕ) : ℚ) else 0)) / ((1 : ℕ) : ℚ)⌉) :=
  rejection_adaptive_objective ⟨2, 1, some ((3 : ℚ) : NpVal), 7⟩
    ⟨[⊤, ⊤, ⊤], [], ⊤, 1, 0, 0, 7⟩ ⟨[((1 : ℚ) : NpVal)], []⟩ ((3 : ℚ) : NpVal) rfl

/-- What a batch dict maps an output name to: a NumPy-array-like value (has
a `shape`, per the `is_array` ducktype check) holding a column of values,
or some non-array object. -/
inductive BatchVal where
  | arr (vals : List NpVal)
  | nonarr
deriving DecidableEq

/-- Whether an output name would pass all three checks of
`_init_samples_lazy`: present in the batch, an array, of length
`batch_size`. -/
def nodeCheckPasses (bs : ℕ) (batch : List (String × BatchVal)) (node : String) : Bool :=
  match batch.lookup node with
  | some (BatchVal.arr v) => v.length == bs
  | _ => false

/-- Models `Rejection._init_samples_lazy`: walk `self.output_names` in
order; a name missing from the batch raises `KeyError`, a non-array value
or an array whose length differs from `batch_size` raises `ValueError`;
otherwise allocate the buffer column for that name — `np.inf` everywhere
for the discrepancy name, an `np.empty` array (modelled as zeros) for the
rest. -/
def initSamplesChecked (p : RejParams) (dname : String)
    (batch : List (String × BatchVal)) :
    List String → Except PyErr (List (String × List NpVal))
  | [] => Except.ok []
  | node :: rest =>
    match batch.lookup node with
    | none => Except.error PyErr.keyError
    | some BatchVal.nonarr => Except.error PyErr.valueError
    | some (BatchVal.arr v) =>
      if v.length ≠ p.batch_size then Except.error PyErr.valueError
      else
        match initSamplesChecked p dname batch rest with
        | Except.error e => Except.error e
        | Except.ok others =>
          Except.ok ((node,
            if node = dname then List.replicate (p.n_samples + p.batch_size) (⊤ : NpVal)
            else List.replicate (p.n_samples + p.batch_size) 0) :: others)

theorem initSamplesChecked_append_error (p : RejParams) (dname : String)
    (batch : List (String × BatchVal)) :
    ∀ (pre rest : List String) (e : PyErr),
      (∀ m ∈ pre, nodeCheckPasses p.batch_size batch m = true) →
      initSamplesChecked p dname batch rest = Except.error e →
      initSamplesChecked p dname batch (pre ++ rest) = Except.error e
  | [], rest, e, _, h => h
  | m :: pre, rest, e, hpre, h => by
    have hm := hpre m (List.mem_cons_self _ _)
    rw [nodeCheckPasses] at hm
    cases hlk : batch.lookup m with
    | none => rw [hlk] at hm; simp at hm
    | some bv =>
      cases bv with
      | nonarr => rw [hlk] at hm; simp at hm
      | arr v =>
        rw [hlk] at hm
        have hv : v.length = p.batch_size := by simpa using hm
        have ih := initSamplesChecked_append_error p dname batch pre rest e
          (fun x hx => hpre x (List.mem_cons_of_mem _ hx)) h
        simp only [List.cons_append, initSamplesChecked, hlk, hv, ne_eq,
          not_true_eq_false, if_false]
        rw [show initSamplesChecked p dname batch (pre.append rest) =
          Except.error e from ih]

theorem initSamplesChecked_ok (p : RejParams) (dname : String)
    (batch : List (String × BatchVal)) :
    ∀ names : List String,
      (∀ m ∈ names, nodeCheckPasses p.batch_size batch m = true) →
      ∃ samples, initSamplesChecked p dname batch names = Except.ok samples ∧
        ∀ col ∈ samples, col.1 = dname →
          col.2 = List.replicate (p.n_samples + p.batch_size) (⊤ : NpVal)
  | [], _ => ⟨[], rfl, by simp⟩
  | node :: rest, hall => by
    obtain ⟨samples, hok, hcols⟩ := initSamplesChecked_ok p dname batch rest
      (fun m hm => hall m (List.mem_cons_of_mem _ hm))
    have hm := hall node (List.mem_cons_self _ _)
    rw [nodeCheckPasses] at hm
    cases hlk : batch.lookup node with
    | none => rw [hlk] at hm; simp at hm
    | some bv =>
      cases bv with
      | nonarr => rw [hlk] at hm; simp at hm
      | arr v =>
        rw [hlk] at hm
        have hv : v.length = p.batch_size := by simpa using hm
        refine ⟨(node,
          if node = dname then List.replicate (p.n_samples + p.batch_size) (⊤ : NpVal)
          else List.replicate (p.n_samples + p.batch_size) 0) :: samples, ?_, ?_⟩
        · simp only [initSamplesChecked, hlk, hv, ne_eq, not_true_eq_false,
            if_false, hok]
        · intro col hcol hcd
          rcases List.mem_cons.mp hcol with rfl | hcol'
          · simp only at hcd
            simp [hcd]
          · exact hcols col hcol' hcd

/-- C10: on the lazy first-update initialisation, walking the requested
output names in order, a name missing from the batch raises `KeyError` and
a non-array or wrong-length value raises `ValueError` (given that every
earlier name passed its checks); when all names pass, initialisation
succeeds and the discrepancy column is pre-filled with `np.inf`; and as a
consequence the `np.inf` pads never appear among the accepted smallest
discrepancies once `n_samples` finite simulations exist. -/
theorem rejection_init_lazy (p : RejParams) (dname node : String)
    (batch : List (String × BatchVal)) (pre post : List String)
    (hpre : ∀ m ∈ pre, nodeCheckPasses p.batch_size batch m = true) :
    (batch.lookup node = none →
      initSamplesChecked p dname batch (pre ++ node :: post) =
        Except.error PyErr.keyError) ∧
    (batch.lookup node = some BatchVal.nonarr →
      initSamplesChecked p dname batch (pre ++ node :: post) =
        Except.error PyErr.valueError) ∧
    (∀ v, batch.lookup node = some (BatchVal.arr v) → v.length ≠ p.batch_size →
      initSamplesChecked p dname batch (pre ++ node :: post) =
        Except.error PyErr.valueError) ∧
    (∀ names : List String,
      (∀ m ∈ names, nodeCheckPasses p.batch_size batch m = true) →
      ∃ samples, initSamplesChecked p dname batch names = Except.ok samples ∧
        ∀ col ∈ samples, col.1 = dname →
          col.2 = List.replicate (p.n_samples + p.batch_size) (⊤ : NpVal)) ∧
    (∀ (batches : List RejBatch) (k : ℕ) (st : RejState),
      (∀ b ∈ batches, b.disc.length = p.batch_size ∧ (⊤ : NpVal) ∉ b.disc) →
      1 ≤ k → k ≤ batches.length → p.n_samples ≤ k * p.batch_size →
      rejRun p (batches.take k) = some st →
      (⊤ : NpVal) ∉ rejExtractDisc p st) := by
  refine ⟨?_, ?_, ?_, initSamplesChecked_ok p dname batch, ?_⟩
  · intro hlk
    exact initSamplesChecked_append_error p dname batch pre (node :: post)
      PyErr.keyError hpre (by simp [initSamplesChecked, hlk])
  · intro hlk
    exact initSamplesChecked_append_error p dname batch pre (node :: post)
      PyErr.valueError hpre (by simp [initSamplesChecked, hlk])
  · intro v hlk hv
    exact initSamplesChecked_append_error p dname batch pre (node :: post)
      PyErr.valueError hpre (by simp [initSamplesChecked, hlk, hv])
  · intro batches k st hwfb hk1 hk2 henough hrun
    obtain ⟨st', hrun', hinv, -, -⟩ :=
      rejRun_inv p batches (fun b hb => (hwfb b hb).1) k hk1 hk2
    have hst : st' = st := Option.some_injective _ (hrun'.symm.trans hrun)
    subst hst
    have hseenlen : (seenDisc (batches.take k)).length = k * p.batch_size := by
      have h := seenDisc_length p.batch_size (batches.take k)
        (fun b hb => (hwfb b ((List.take_sublist _ _).mem hb)).1)
      rw [h, List.length_take]
      have : min k batches.length = k := by omega
      rw [this]
    have hext : rejExtractDisc p st' =
        (sortVals (seenDisc (batches.take k))).take p.n_samples := by
      have h1 := extract_of_inv p k (seenDisc (batches.take k)) st' hinv
      rw [rejExtractDisc, h1, sortVals_pad_take]
      rw [hseenlen]
      exact henough
    intro hmem
    rw [hext] at hmem
    have h2 : (⊤ : NpVal) ∈ sortVals (seenDisc (batches.take k)) :=
      (List.take_sublist _ _).mem hmem
    have h3 : (⊤ : NpVal) ∈ seenDisc (batches.take k) :=
      (sortVals_perm _).mem_iff.mp h2
    obtain ⟨l, hl, hml⟩ := List.mem_flatten.mp h3
    obtain ⟨b, hb, rfl⟩ := List.mem_map.mp hl
    exact (hwfb b ((List.take_sublist _ _).mem hb)).2 hml

/-- Witness for C10 at a one-name batch that passes its checks. -/
theorem rejection_init_lazy_witness :
    ((([("d", BatchVal.arr [((2 : ℚ) : NpVal)])] :
          List (String × BatchVal)).lookup "d") = none →
      initSamplesChecked ⟨1, 1, none, 0⟩ "d"
          [("d", BatchVal.arr [((2 : ℚ) : NpVal)])] ([] ++ "d" :: []) =
        Except.error PyErr.keyError) ∧
    ((([("d", BatchVal.arr [((2 : ℚ) : NpVal)])] :
          List (String × BatchVal)).lookup "d") = some BatchVal.nonarr →
      initSamplesChecked ⟨1, 1, none, 0⟩ "d"
          [("d", BatchVal.arr [((2 : ℚ) : NpVal)])] ([] ++ "d" :: []) =
        Except.error PyErr.valueError) ∧
    (∀ v, (([("d", BatchVal.arr [((2 : ℚ) : NpVal)])] :
          List (String × BatchVal)).lookup "d") = some (BatchVal.arr v) →
      v.length ≠ (⟨1, 1, none, 0⟩ : RejParams).batch_size →
      initSamplesChecked ⟨1, 1, none, 0⟩ "d"
          [("d", BatchVal.arr [((2 : ℚ) : NpVal)])] ([] ++ "d" :: []) =
        Except.error PyErr.valueError) ∧
    (∀ names : List String,
      (∀ m ∈ names, nodeCheckPasses (⟨1, 1, none, 0⟩ : RejParams).batch_size
        [("d", BatchVal.arr [((2 : ℚ) : NpVal)])] m = true) →
      ∃ samples, initSamplesChecked ⟨1, 1, none, 0⟩ "d"
          [("d", BatchVal.arr [((2 : ℚ) : NpVal)])] names = Except.ok samples ∧
        ∀ col ∈ samples, col.1 = "d" →
          col.2 = List.replicate (1 + 1) (⊤ : NpVal)) ∧
    (∀ (batches : List RejBatch) (k : ℕ) (st : RejState),
      (∀ b ∈ batches, b.disc.length = 1 ∧ (⊤ : NpVal) ∉ b.disc) →
      1 ≤ k → k ≤ batches.length → 1 ≤ k * 1 →
      rejRun ⟨1, 1, none, 0⟩ (batches.take k) = some st →
      (⊤ : NpVal) ∉ rejExtractDisc ⟨1, 1, none, 0⟩ st) :=
  rejection_init_lazy ⟨1, 1, none, 0⟩ "d" "d"
    [("d", BatchVal.arr [((2 : ℚ) : NpVal)])] [] [] (by simp)

/-! ### SMC weight and covariance computation
(src/elfi/methods/parameter_inference.py, src/elfi/methods/utils.py)

The float arithmetic of `_compute_weights_and_cov` is embedded over exact
rationals; the two float-specific primitives are passed in as functions:
`fexp` models `np.exp` on log-densities (including its underflow to zero)
and `isFin` models the entrywise `np.isfinite` test on the computed float
covariance.  Division by zero in `ℚ` returns 0, so non-finiteness cannot
arise inside `ℚ` itself; it is entirely captured by `isFin`. -/

/-- Models `weighted_var(x, weights)`: `V_1 = sum(w)`, `V_2 = sum(w**2)`,
weighted column means, and `s2 = w.dot((x - xbar)**2) / (V_1 - V_2/V_1)`
per column. -/
def weighted_var (x : List (List ℚ)) (w : List ℚ) : List ℚ :=
  let V1 := w.sum
  let V2 := (w.map (fun wi => wi ^ 2)).sum
  x.transpose.map (fun col =>
    let xbar := ((w.zip col).map (fun q => q.1 * q.2)).sum / V1
    let numerator := ((w.zip col).map (fun q => q.1 * (q.2 - xbar) ^ 2)).sum
    numerator / (V1 - V2 / V1))

/-- Models `np.diag(v)` on a vector. -/
def diagMat (v : List ℚ) : List (List ℚ) :=
  (List.range v.length).map (fun i =>
    (List.range v.length).map (fun j => if i = j then v.getD i 0 else 0))

/-- Scalar multiplication of a matrix, as in `2 * np.diag(...)`. -/
def matScale (c : ℚ) (m : List (List ℚ)) : List (List ℚ) :=
  m.map (fun row => row.map (fun a => c * a))

/-- Models `params.shape[1]` of the column-stacked parameter matrix: the
number of parameters. -/
def nCols (params : List (List ℚ)) : ℕ := (params.headD []).length

/-- The importance weights of `_compute_weights_and_cov`: for round 0 (no
previous populations) `np.ones(n_samples)`, otherwise
`np.exp(p_logpdf - q_logpdf)`. -/
def smcWeights (popsNonempty : Bool) (fexp : ℚ → ℚ)
    (p_logpdf q_logpdf : List ℚ) (n_samples : ℕ) : List ℚ :=
  if popsNonempty then (p_logpdf.zip q_logpdf).map (fun pq => fexp (pq.1 - pq.2))
  else List.replicate n_samples 1

/-- Error raised by `_compute_weights_and_cov`. -/
inductive SmcError
  | allWeightsZero
deriving DecidableEq

/-- Result of `_compute_weights_and_cov`: the weights, the covariance, and
whether the non-finite-covariance warning was logged. -/
structure SmcWeightsCov where
  w : List ℚ
  cov : List (List ℚ)
  warned : Bool
deriving DecidableEq

/-- Models `SMC._compute_weights_and_cov`: compute the weights; if
`np.count_nonzero(w) == 0` raise `RuntimeError`; otherwise compute
`cov = 2 * np.diag(weighted_var(params, w))`, and if it is not entirely
finite, log a warning and fall back to `np.diag(np.ones(params.shape[1]))`. -/
def computeWeightsAndCov (popsNonempty : Bool) (fexp : ℚ → ℚ) (isFin : ℚ → Bool)
    (params : List (List ℚ)) (p_logpdf q_logpdf : List ℚ) (n_samples : ℕ) :
    Except SmcError SmcWeightsCov :=
  let w := smcWeights popsNonempty fexp p_logpdf q_logpdf n_samples
  if w.countP (fun x => x ≠ 0) = 0 then Except.error SmcError.allWeightsZero
  else
    let cov := matScale 2 (diagMat (weighted_var params w))
    if cov.all (fun row => row.all isFin) then Except.ok ⟨w, cov, false⟩
    else Except.ok ⟨w, diagMat (List.replicate (nCols params) 1), true⟩

/-- C6: round 0 gives all-ones weights; later rounds give
`exp(prior_logpdf - mixture_logpdf)`; all weights zero is a raised error,
not a fallback; and a non-finite covariance yields the identity matrix of
dimension `params.shape[1]` together with a recorded warning instead of an
exception. -/
theorem smc_weights_and_cov (fexp : ℚ → ℚ) (isFin : ℚ → Bool)
    (params : List (List ℚ)) (pl ql : List ℚ) (n : ℕ) :
    smcWeights false fexp pl ql n = List.replicate n 1 ∧
    smcWeights true fexp pl ql n = (pl.zip ql).map (fun pq => fexp (pq.1 - pq.2)) ∧
    (∀ b : Bool, (smcWeights b fexp pl ql n).countP (fun x => x ≠ 0) = 0 →
      computeWeightsAndCov b fexp isFin params pl ql n =
        Except.error SmcError.allWeightsZero) ∧
    (∀ b : Bool, (smcWeights b fexp pl ql n).countP (fun x => x ≠ 0) ≠ 0 →
      ¬ ((matScale 2 (diagMat (weighted_var params (smcWeights b fexp pl ql n)))).all
          (fun row => row.all isFin) = true) →
      computeWeightsAndCov b fexp isFin params pl ql n =
        Except.ok ⟨smcWeights b fexp pl ql n,
          diagMat (List.replicate (nCols params) 1), true⟩) ∧
    (∀ d : ℕ, diagMat (List.replicate d 1) =
      (List.range d).map (fun i =>
        (List.range d).map (fun j => if i = j then 1 else 0))) := by
  refine ⟨rfl, rfl, ?_, ?_, ?_⟩
  · intro b h0
    rw [computeWeightsAndCov]
    simp only [h0, if_pos]
  · intro b h0 hfin
    rw [computeWeightsAndCov]
    simp only [if_neg h0, if_neg hfin]
  · intro d
    rw [diagMat, List.length_replicate]
    apply List.map_congr_left
    intro i hi
    apply List.map_congr_left
    intro j _
    rcases Nat.lt_or_ge i (List.replicate d (1 : ℚ)).length with hlt | hge
    · rw [List.getD_eq_getElem _ _ hlt, List.getElem_replicate]
    · rw [List.length_replicate] at hge
      rw [List.mem_range] at hi
      omega

/-- Witness for C6: a zero-underflowing `exp` triggers the fatal error, and
an all-false `isFin` triggers the identity-covariance fallback with the
warning recorded. -/
theorem smc_weights_and_cov_witness :
    computeWeightsAndCov true (fun _ => 0) (fun _ => true) [[1], [2]] [0, 0] [0, 0] 2 =
      Except.error SmcError.allWeightsZero ∧
    computeWeightsAndCov true (fun _ => 1) (fun _ => false) [[1], [2]] [0, 0] [0, 0] 2 =
      Except.ok ⟨smcWeights true (fun _ => 1) [0, 0] [0, 0] 2,
        diagMat (List.replicate (nCols [[1], [2]]) 1), true⟩ :=
  ⟨(smc_weights_and_cov (fun _ => 0) (fun _ => true) [[1], [2]] [0, 0] [0, 0] 2).2.2.1
      true (by decide),
   (smc_weights_and_cov (fun _ => 1) (fun _ => false) [[1], [2]] [0, 0] [0, 0] 2).2.2.2.1
      true (by decide) (by decide)⟩

/-! ### BayesianOptimization submission policy
(src/elfi/methods/parameter_inference.py lines 1018-1049) -/

/-- Models `BayesianOptimization._get_acquisition_index`: Python ints are
`ℤ` and `//` is floor division (`Int.fdiv`). -/
def getAcquisitionIndex (batch_size batches_per_acq n_initial_evidence
    n_precomputed batch_index : ℤ) : ℤ :=
  let acq_batch_size := batch_size * batches_per_acq
  let initial_offset := n_initial_evidence - n_precomputed
  let starting_sim_index := batch_size * batch_index
  Int.fdiv (starting_sim_index - initial_offset) acq_batch_size

/-- Models `BayesianOptimization._allow_submit`.  `superAllow` is the value
of the base-class guard `super()._allow_submit(batch_index)`;
`acquisitionsLeft` is `len(self.state['acquisition'])`; `hasPendingVal` is
the truthiness of the attribute `self.batches.has_pending` — in this
snapshot of `client.py` `has_pending` is a method, not a property, so the
attribute is a bound method object whose truthiness is always `true`; it
is kept as a parameter so the statement covers any value that is `true`
while a batch is pending. -/
def allowSubmit (superAllow asyncAcq : Bool)
    (batch_size batches_per_acq n_initial_evidence n_precomputed batch_index : ℤ)
    (acquisitionsLeft : ℕ) (hasPendingVal : Bool) : Bool :=
  if ¬ superAllow then false
  else if asyncAcq then true
  else if getAcquisitionIndex batch_size batches_per_acq n_initial_evidence
      n_precomputed batch_index < 0 then true
  else if acquisitionsLeft = 0 ∧ hasPendingVal = true then false
  else true

/-- C7: in synchronous mode (`async_acq=False`), whenever the pending
acquisition batch index maps to an acquisition index `t ≥ 0`, the
acquisition buffer is exhausted and a previously submitted batch is still
pending, `_allow_submit` returns `False` — no new acquisition batch can be
submitted until the pending ones resolve. -/
theorem bo_allow_submit_sync (superAllow : Bool)
    (bs bpa ninit npre bi : ℤ) (acqLeft : ℕ) (hasPendingVal : Bool)
    (ht : 0 ≤ getAcquisitionIndex bs bpa ninit npre bi)
    (hacq : acqLeft = 0) (hpend : hasPendingVal = true) :
    allowSubmit superAllow false bs bpa ninit npre bi acqLeft hasPendingVal = false := by
  cases superAllow
  · rfl
  · rw [allowSubmit]
    simp only [not_true_eq_false, if_false, Bool.false_eq_true]
    rw [if_neg (by omega), if_pos ⟨hacq, hpend⟩]

/-- Witness for C7 with one exhausted acquisition buffer and a pending
batch at acquisition index `t = 0`. -/
theorem bo_allow_submit_sync_witness :
    allowSubmit true false 1 1 0 0 0 0 true = false :=
  bo_allow_submit_sync true 1 1 0 0 0 0 true (by decide) rfl rfl

/-! ### get_sub_seed (src/elfi/utils.py)

The seeded `np.random.RandomState` yields a fixed stream of draws below
`high`; it is modelled as a function `stream : ℕ → ℕ` from draw position to
value (fresh seeding with the same seed always gives the same stream, and
`randint(high, size=n)` consumes the next `n` positions). -/

/-- The set of values drawn in the first `m` stream positions. -/
def streamSet (stream : ℕ → ℕ) (m : ℕ) : Finset ℕ :=
  (Finset.range m).image stream

/-- Models the `while n_unique != n_unique_required` loop of
`get_sub_seed`: each iteration draws `n_draws = required - len(seen)`
fresh stream values, adds them to `seen`, and when exactly `required`
unique values have been seen returns the last drawn value
(`sub_seeds[-1]`).  One unit of fuel per loop iteration; `none` means the
loop is still running after `fuel` iterations. -/
def gssLoop (stream : ℕ → ℕ) (required : ℕ) :
    ℕ → ℕ → Finset ℕ → Option ℕ
  | 0, _, _ => none
  | fuel + 1, pos, seen =>
    let nDraws := required - seen.card
    let batch := (List.range nDraws).map (fun k => stream (pos + k))
    let seen' := seen ∪ batch.toFinset
    if seen'.card = required then some (stream (pos + nDraws - 1))
    else gssLoop stream required fuel (pos + nDraws) seen'

/-- Models `get_sub_seed(random_state, sub_seed_index, high)`: raise
`ValueError` when `sub_seed_index >= high`, otherwise run the drawing loop
with `n_unique_required = sub_seed_index + 1` starting from an empty seen
set at stream position 0 (a freshly seeded random state). -/
def getSubSeed (stream : ℕ → ℕ) (sub_seed_index high : ℕ) (fuel : ℕ) :
    Except PyErr (Option ℕ) :=
  if high ≤ sub_seed_index then Except.error PyErr.valueError
  else Except.ok (gssLoop stream (sub_seed_index + 1) fuel 0 ∅)

theorem streamSet_zero (stream : ℕ → ℕ) : streamSet stream 0 = ∅ := by
  simp [streamSet]

theorem streamSet_succ (stream : ℕ → ℕ) (m : ℕ) :
    streamSet stream (m + 1) = insert (stream m) (streamSet stream m) := by
  rw [streamSet, streamSet, Finset.range_succ, Finset.image_insert]

theorem streamSet_add (stream : ℕ → ℕ) (pos d : ℕ) :
    streamSet stream (pos + d) =
      streamSet stream pos ∪ ((List.range d).map (fun k => stream (pos + k))).toFinset := by
  ext x
  simp only [streamSet, Finset.mem_union, Finset.mem_image, Finset.mem_range,
    List.mem_toFinset, List.mem_map, List.mem_range]
  constructor
  · rintro ⟨j, hj, rfl⟩
    by_cases hjp : j < pos
    · exact Or.inl ⟨j, hjp, rfl⟩
    · exact Or.inr ⟨j - pos, by omega, by congr 1; omega⟩
  · rintro (⟨j, hj, rfl⟩ | ⟨k, hk, rfl⟩)
    · exact ⟨j, by omega, rfl⟩
    · exact ⟨pos + k, by omega, rfl⟩

theorem streamSet_card_le_add (stream : ℕ → ℕ) (m : ℕ) :
    ∀ d, (streamSet stream (m + d)).card ≤ (streamSet stream m).card + d
  | 0 => le_refl _
  | d + 1 => by
    have h1 := streamSet_card_le_add stream m d
    have h2 : (streamSet stream (m + (d + 1))).card ≤
        (streamSet stream (m + d)).card + 1 := by
      have : m + (d + 1) = (m + d) + 1 := by omega
      rw [this, streamSet_succ]
      exact Finset.card_insert_le _ _
    omega

theorem streamSet_card_mono (stream : ℕ → ℕ) (m : ℕ) :
    ∀ d, (streamSet stream m).card ≤ (streamSet stream (m + d)).card
  | 0 => le_refl _
  | d + 1 => by
    have h1 := streamSet_card_mono stream m d
    have h2 : (streamSet stream (m + d)).card ≤
        (streamSet stream (m + d + 1)).card := by
      rw [streamSet_succ]
      exact Finset.card_le_card (Finset.subset_insert _ _)
    have he : m + (d + 1) = m + d + 1 := by omega
    rw [he]
    omega

theorem streamSet_card_le_of_le (stream : ℕ → ℕ) {m m' : ℕ} (h : m ≤ m') :
    (streamSet stream m).card ≤ (streamSet stream m').card := by
  have := streamSet_card_mono stream m (m' - m)
  have hm : m + (m' - m) = m' := by omega
  rwa [hm] at this

/-- Characterisation of a successful loop run: the returned value is the
stream value at the first position where the number of distinct values
drawn reaches `required`. -/
theorem gssLoop_spec (stream : ℕ → ℕ) (required : ℕ) :
    ∀ (fuel pos : ℕ) (seen : Finset ℕ) (r : ℕ),
      seen = streamSet stream pos →
      seen.card < required →
      gssLoop stream required fuel pos seen = some r →
      ∃ m, 0 < m ∧ r = stream (m - 1) ∧
        (streamSet stream m).card = required ∧
        (streamSet stream (m - 1)).card = required - 1
  | 0, pos, seen, r, _, _, h => by simp [gssLoop] at h
  | fuel + 1, pos, seen, r, hseen, hlt, h => by
    rw [gssLoop] at h
    set nDraws := required - seen.card with hnd
    have hnd1 : 1 ≤ nDraws := by omega
    have hseen' : seen ∪ ((List.range nDraws).map (fun k => stream (pos + k))).toFinset =
        streamSet stream (pos + nDraws) := by
      rw [streamSet_add, hseen]
    by_cases hcard : (seen ∪ ((List.range nDraws).map
        (fun k => stream (pos + k))).toFinset).card = required
    · rw [if_pos hcard] at h
      refine ⟨pos + nDraws, by omega, (Option.some_injective _ h).symm, ?_, ?_⟩
      · rw [← hseen', hcard]
      · -- counts rise by exactly one per position across the final batch
        have hc1 : (streamSet stream (pos + nDraws)).card = required := by
          rw [← hseen', hcard]
        have hc0 : (streamSet stream pos).card = required - nDraws := by
          rw [← hseen]; omega
        have hle1 : (streamSet stream (pos + (nDraws - 1))).card ≤
            (streamSet stream pos).card + (nDraws - 1) :=
          streamSet_card_le_add stream pos (nDraws - 1)
        have hle2 : (streamSet stream (pos + nDraws)).card ≤
            (streamSet stream (pos + (nDraws - 1))).card + 1 := by
          have hstep := streamSet_card_le_add stream (pos + (nDraws - 1)) 1
          have hm : pos + (nDraws - 1) + 1 = pos + nDraws := by omega
          rwa [hm] at hstep
        have hge : (streamSet stream pos).card ≤
            (streamSet stream (pos + (nDraws - 1))).card :=
          streamSet_card_le_of_le stream (by omega)
        have hm2 : pos + nDraws - 1 = pos + (nDraws - 1) := by omega
        rw [hm2]
        omega
    · rw [if_neg hcard] at h
      have hcardle : (seen ∪ ((List.range nDraws).map
          (fun k => stream (pos + k))).toFinset).card ≤ required := by
        have h1 := Finset.card_union_le seen
          ((List.range nDraws).map (fun k => stream (pos + k))).toFinset
        have h2 := List.toFinset_card_le
          ((List.range nDraws).map (fun k => stream (pos + k)))
        rw [List.length_map, List.length_range] at h2
        omega
      exact gssLoop_spec stream required fuel (pos + nDraws) _ r hseen'
        (by omega) h

/-- The position whose count characterisation `gssLoop_spec` produces is
unique, hence so is the returned value. -/
theorem gss_spec_unique (stream : ℕ → ℕ) (required : ℕ) {m m' : ℕ}
    (hm0 : 0 < m) (hm : (streamSet stream m).card = required)
    (hm1 : (streamSet stream (m - 1)).card = required - 1)
    (hm0' : 0 < m') (hm' : (streamSet stream m').card = required)
    (hm1' : (streamSet stream (m' - 1)).card = required - 1)
    (hreq : 1 ≤ required) : m = m' := by
  by_contra hne
  rcases Nat.lt_or_ge m m' with hlt | hge
  · have h1 : (streamSet stream m).card ≤ (streamSet stream (m' - 1)).card :=
      streamSet_card_le_of_le stream (by omega)
    omega
  · have hlt' : m' < m := by omega
    have h1 : (streamSet stream m').card ≤ (streamSet stream (m - 1)).card :=
      streamSet_card_le_of_le stream (by omega)
    omega

/-- C4: for a fixed stream (a freshly seeded random state) and two
different sub-seed indices below `high`, any terminating evaluations of
`get_sub_seed` produce distinct values, and any two terminating
evaluations for the same index produce the same value regardless of the
fuel bound. -/
theorem get_sub_seed_distinct_deterministic (stream : ℕ → ℕ) (i j high : ℕ)
    (fi fj fi' : ℕ) (a b a' : ℕ)
    (hij : i ≠ j) (hi : i < high) (hj : j < high)
    (ha : getSubSeed stream i high fi = Except.ok (some a))
    (hb : getSubSeed stream j high fj = Except.ok (some b))
    (ha' : getSubSeed stream i high fi' = Except.ok (some a')) :
    a ≠ b ∧ a' = a := by
  have hrun : ∀ (idx f : ℕ) (r : ℕ), idx < high →
      getSubSeed stream idx high f = Except.ok (some r) →
      gssLoop stream (idx + 1) f 0 ∅ = some r := by
    intro idx f r hidx h
    rw [getSubSeed, if_neg (by omega)] at h
    have := congrArg (fun e => match e with
      | Except.ok o => o
      | Except.error _ => none) h
    simpa using this
  have hspec : ∀ (idx f r : ℕ), idx < high →
      getSubSeed stream idx high f = Except.ok (some r) →
      ∃ m, 0 < m ∧ r = stream (m - 1) ∧
        (streamSet stream m).card = idx + 1 ∧
        (streamSet stream (m - 1)).card = idx := by
    intro idx f r hidx h
    have h2 := gssLoop_spec stream (idx + 1) f 0 ∅ r (streamSet_zero stream).symm
      (by simp) (hrun idx f r hidx h)
    simpa using h2
  obtain ⟨m, hm0, hma, hmc, hmc1⟩ := hspec i fi a hi ha
  obtain ⟨m', hm0', hmb, hmc', hmc1'⟩ := hspec j fj b hj hb
  obtain ⟨m'', hm0'', hma', hmc'', hmc1''⟩ := hspec i fi' a' hi ha'
  have hsubset : ∀ {u u' : ℕ}, u ≤ u' →
      streamSet stream u ⊆ streamSet stream u' := by
    intro u u' h
    exact Finset.image_subset_image (Finset.range_subset.mpr h)
  have hfresh : ∀ (mm req : ℕ), 0 < mm → (streamSet stream mm).card = req →
      (streamSet stream (mm - 1)).card = req - 1 → 1 ≤ req →
      stream (mm - 1) ∉ streamSet stream (mm - 1) := by
    intro mm req hmm hc hc1 hr hmem
    have heq : streamSet stream (mm - 1 + 1) = streamSet stream (mm - 1) := by
      rw [streamSet_succ, Finset.insert_eq_self.mpr hmem]
    have hc' : (streamSet stream (mm - 1 + 1)).card = req := by
      rw [show mm - 1 + 1 = mm from by omega]
      exact hc
    rw [heq] at hc'
    omega
  constructor
  · -- the value returned for an index is fresh at its final position,
    -- while the value for the smaller index was drawn strictly earlier
    have hmm' : m ≠ m' := by
      intro he
      rw [he, hmc'] at hmc
      omega
    rcases Nat.lt_or_ge m m' with hlt | hge
    · have ha_mem : a ∈ streamSet stream (m' - 1) := by
        have h1 : a ∈ streamSet stream m := by
          rw [hma]
          exact Finset.mem_image.mpr ⟨m - 1, Finset.mem_range.mpr (by omega), rfl⟩
        exact hsubset (by omega) h1
      have hb_fresh := hfresh m' (j + 1) hm0' hmc' (by simpa using hmc1') (by omega)
      intro hab
      exact hb_fresh (by rw [← hmb, ← hab]; exact ha_mem)
    · have hlt' : m' < m := by omega
      have hb_mem : b ∈ streamSet stream (m - 1) := by
        have h1 : b ∈ streamSet stream m' := by
          rw [hmb]
          exact Finset.mem_image.mpr ⟨m' - 1, Finset.mem_range.mpr (by omega), rfl⟩
        exact hsubset (by omega) h1
      have ha_fresh := hfresh m (i + 1) hm0 hmc (by simpa using hmc1) (by omega)
      intro hab
      exact ha_fresh (by rw [← hma, hab]; exact hb_mem)
  · have huniq : m'' = m :=
      gss_spec_unique stream (i + 1) hm0'' hmc'' (by simpa using hmc1'')
        hm0 hmc (by simpa using hmc1) (by omega)
    rw [hma', huniq, hma]

/-- Witness for C4 with the identity stream: sub-seed 0 is the first drawn
value 0 and sub-seed 1 is the second distinct value 1, reproducibly across
different fuel bounds. -/
theorem get_sub_seed_distinct_deterministic_witness : (0 : ℕ) ≠ 1 ∧ (0 : ℕ) = 0 :=
  get_sub_seed_distinct_deterministic (fun n => n) 0 1 100 5 5 9 0 1 0
    (by decide) (by decide) (by decide) (by rfl) (by rfl) (by rfl)

/-! ### GMDistribution.rvs (src/elfi/methods/utils.py)

The proposal points are abstracted by a type `α`; the combined random
draw of one loop iteration (`means[inds] + perturb`, a function of the
random-state position, i.e. of the trial number, and of `n_left`) is the
parameter `gen`, and `np.isfinite(prior_logpdf(x))` is the predicate
`valid`.  `usePrior` is whether `prior_logpdf` was passed. -/

/-- Loop state of `GMDistribution.rvs`: the accepted samples written into
`output` so far, the counters, and whether the trials-exhaustion warning
has been logged. -/
structure RvsState (α : Type) where
  output : List α
  n_accepted : ℕ
  n_left : ℕ
  trials : ℕ
  warned : Bool
deriving DecidableEq

/-- One iteration of the `while n_accepted < size` loop: draw `n_left`
candidates, filter them through the prior check when one is given, append
the survivors to the output slots, update the counters, and log the
warning when `trials` reaches 100 (the loop then just keeps trying). -/
def rvsStep {α : Type} (gen : ℕ → ℕ → List α) (valid : α → Bool)
    (usePrior : Bool) (s : RvsState α) : RvsState α :=
  let candidates := gen s.trials s.n_left
  let x := if usePrior then candidates.filter valid else candidates
  let n_accepted1 := x.length
  { output := s.output ++ x,
    n_accepted := s.n_accepted + n_accepted1,
    n_left := s.n_left - n_accepted1,
    trials := s.trials + 1,
    warned := s.warned || s.trials + 1 == 100 }

/-- Models the `while n_accepted < size` loop of `GMDistribution.rvs` with
one unit of fuel per iteration; `none` means the loop is still running
after `fuel` iterations.  The source loop has no iteration bound and no
raise: exhausted fuel is not an error value of the code, only a cutoff of
the model. -/
def rvsLoop {α : Type} (gen : ℕ → ℕ → List α) (valid : α → Bool)
    (usePrior : Bool) (size : ℕ) : ℕ → RvsState α → Option (RvsState α)
  | 0, s => if size ≤ s.n_accepted then some s else none
  | fuel + 1, s =>
    if size ≤ s.n_accepted then some s
    else rvsLoop gen valid usePrior size fuel (rvsStep gen valid usePrior s)

/-- The state entering the loop: empty output, `n_accepted = 0`,
`n_left = size`, no trials, no warning. -/
def rvsInit (α : Type) (size : ℕ) : RvsState α := ⟨[], 0, size, 0, false⟩

/-- C8 counterexample: with a prior check that rejects every candidate the
loop never returns, for any number of iterations — there is no retry bound
after which an error is raised; the code would loop forever. -/
theorem gm_rvs_no_retry_bound :
    ¬ ∃ fuel : ℕ, (rvsLoop (fun _ n => List.replicate n (0 : ℚ)) (fun _ => false)
      true 1 fuel (rvsInit ℚ 1)).isSome := by
  rintro ⟨fuel, hfuel⟩
  suffices h : ∀ (f : ℕ) (s : RvsState ℚ), s.n_accepted = 0 →
      rvsLoop (fun _ n => List.replicate n (0 : ℚ)) (fun _ => false) true 1 f s =
        none by
    rw [h fuel _ rfl] at hfuel
    simp at hfuel
  intro f
  induction f with
  | zero =>
    intro s hs
    rw [rvsLoop, if_neg (by omega)]
  | succ f ih =>
    intro s hs
    rw [rvsLoop, if_neg (by omega)]
    apply ih
    simp [rvsStep, hs]

/-- Invariant of the rvs loop: all output passed the prior check, output
length matches `n_accepted`, the counters partition `size`, and the
warning flag records whether 100 trials were reached. -/
def rvsInv {α : Type} (valid : α → Bool) (size : ℕ) (s : RvsState α) : Prop :=
  (∀ a ∈ s.output, valid a = true) ∧
  s.output.length = s.n_accepted ∧
  s.n_accepted + s.n_left = size ∧
  (s.warned = true ↔ 100 ≤ s.trials)

theorem rvsStep_inv {α : Type} (gen : ℕ → ℕ → List α) (valid : α → Bool)
    (size : ℕ) (hgen : ∀ t n, (gen t n).length = n) (s : RvsState α)
    (h : rvsInv valid size s) : rvsInv valid size (rvsStep gen valid true s) := by
  obtain ⟨hvalid, hlen, hsum, hwarn⟩ := h
  have hxlen : ((gen s.trials s.n_left).filter valid).length ≤ s.n_left := by
    calc ((gen s.trials s.n_left).filter valid).length
        ≤ (gen s.trials s.n_left).length := List.length_filter_le _ _
      _ = s.n_left := hgen _ _
  refine ⟨?_, ?_, ?_, ?_⟩
  · intro a ha
    rw [rvsStep] at ha
    simp only [if_pos] at ha
    rcases List.mem_append.mp ha with ha | ha
    · exact hvalid a ha
    · exact List.of_mem_filter ha
  · simp only [rvsStep, if_pos, List.length_append, hlen]
  · simp only [rvsStep, if_pos]
    omega
  · simp only [rvsStep, if_pos]
    constructor
    · intro hw
      rcases Bool.or_eq_true_iff.mp hw with hw | hw
      · have := hwarn.mp hw
        omega
      · have : s.trials + 1 = 100 := by simpa using hw
        omega
    · intro ht
      rcases Nat.lt_or_ge s.trials 100 with hlt | hge
      · have : s.trials + 1 = 100 := by omega
        simp [this]
      · simp [hwarn.mpr hge]

theorem rvsLoop_inv {α : Type} (gen : ℕ → ℕ → List α) (valid : α → Bool)
    (size : ℕ) (hgen : ∀ t n, (gen t n).length = n) :
    ∀ (fuel : ℕ) (s s' : RvsState α), rvsInv valid size s →
      rvsLoop gen valid true size fuel s = some s' →
      rvsInv valid size s' ∧ size ≤ s'.n_accepted
  | 0, s, s', hinv, h => by
    rw [rvsLoop] at h
    by_cases hc : size ≤ s.n_accepted
    · rw [if_pos hc] at h
      exact (Option.some_injective _ h) ▸ ⟨hinv, hc⟩
    · rw [if_neg hc] at h
      exact absurd h (by simp)
  | fuel + 1, s, s', hinv, h => by
    rw [rvsLoop] at h
    by_cases hc : size ≤ s.n_accepted
    · rw [if_pos hc] at h
      exact (Option.some_injective _ h) ▸ ⟨hinv, hc⟩
    · rw [if_neg hc] at h
      exact rvsLoop_inv gen valid size hgen fuel _ s'
        (rvsStep_inv gen valid size hgen s hinv) h

/-- C8 amended: with a prior check in place, whenever the loop terminates
it returns exactly `size` samples, every one of them passing the
finite-prior-log-density check, and the persistent-failure warning has
been logged precisely when 100 or more trials were used; however the loop
has no retry bound and raises no error — with no valid proposals it simply
runs forever (see the counterexample theorem). -/
theorem gm_rvs_filtered_output {α : Type} (gen : ℕ → ℕ → List α)
    (valid : α → Bool) (size fuel : ℕ) (s : RvsState α)
    (hgen : ∀ t n, (gen t n).length = n)
    (h : rvsLoop gen valid true size fuel (rvsInit α size) = some s) :
    s.output.length = size ∧
    (∀ a ∈ s.output, valid a = true) ∧
    (s.warned = true ↔ 100 ≤ s.trials) := by
  have hinit : rvsInv valid size (rvsInit α size) := by
    refine ⟨by simp [rvsInit], by simp [rvsInit], by simp [rvsInit], ?_⟩
    simp [rvsInit]
  obtain ⟨⟨hvalid, hlen, hsum, hwarn⟩, hge⟩ :=
    rvsLoop_inv gen valid size hgen fuel _ s hinit h
  exact ⟨by omega, hvalid, hwarn⟩

/-- Witness for C8's amended theorem: an always-accepting prior check and
one candidate per draw terminate after one iteration with one valid
sample and no warning. -/
theorem gm_rvs_filtered_output_witness :
    (⟨[(0 : ℚ)], 1, 0, 1, false⟩ : RvsState ℚ).output.length = 1 ∧
      (∀ a ∈ (⟨[(0 : ℚ)], 1, 0, 1, false⟩ : RvsState ℚ).output,
        (fun (_ : ℚ) => true) a = true) ∧
      ((⟨[(0 : ℚ)], 1, 0, 1, false⟩ : RvsState ℚ).warned = true ↔
        100 ≤ (⟨[(0 : ℚ)], 1, 0, 1, false⟩ : RvsState ℚ).trials) :=
  gm_rvs_filtered_output (fun _ n => List.replicate n (0 : ℚ))
    (fun _ => true) 1 1 ⟨[(0 : ℚ)], 1, 0, 1, false⟩ (fun t n => by simp) (by decide)
